import Mathlib

/-!
Verification of the 2-D Dual-Tree Complex Wavelet Transform implementation
(`dtcwt`: `lowlevel.py`, `transform2d.py`) against its specification.

The code computes with real matrices whose entries, for the filter sets used
here, all lie in the subfield ℚ(√2) of ℝ.  We embed the arithmetic exactly in
the computable commutative ring `K` of numbers `a + b·√2` with `a b : ℚ`:
floating point rounding is abstracted away, every other aspect of the
algorithms (index arithmetic, boundary reflection, polyphase filtering,
interleaving, padding, cropping, error raising) is translated faithfully.

Matrices are total functions `ℕ → ℕ → K` together with explicitly tracked
row/column counts, mirroring numpy arrays; all equalities of matrices are
stated on the in-range window (`MatEqOn`).
-/

namespace DTCWT

/-- Exact scalar: the element `a + b * √2` of ℚ(√2) ⊆ ℝ. -/
structure K where
  a : ℚ
  b : ℚ
deriving DecidableEq, Repr

namespace K

@[ext] theorem ext2 {x y : K} (ha : x.a = y.a) (hb : x.b = y.b) : x = y := by
  cases x; cases y; simp_all

instance : Add K := ⟨fun x y => ⟨x.a + y.a, x.b + y.b⟩⟩
instance : Mul K := ⟨fun x y => ⟨x.a * y.a + 2 * x.b * y.b, x.a * y.b + x.b * y.a⟩⟩
instance : Neg K := ⟨fun x => ⟨-x.a, -x.b⟩⟩
instance : Zero K := ⟨⟨0, 0⟩⟩
instance : One K := ⟨⟨1, 0⟩⟩

@[simp] theorem add_a (x y : K) : (x + y).a = x.a + y.a := rfl
@[simp] theorem add_b (x y : K) : (x + y).b = x.b + y.b := rfl
@[simp] theorem mul_a (x y : K) : (x * y).a = x.a * y.a + 2 * x.b * y.b := rfl
@[simp] theorem mul_b (x y : K) : (x * y).b = x.a * y.b + x.b * y.a := rfl
@[simp] theorem neg_a (x : K) : (-x).a = -x.a := rfl
@[simp] theorem neg_b (x : K) : (-x).b = -x.b := rfl
@[simp] theorem zero_a : (0 : K).a = 0 := rfl
@[simp] theorem zero_b : (0 : K).b = 0 := rfl
@[simp] theorem one_a : (1 : K).a = 1 := rfl
@[simp] theorem one_b : (1 : K).b = 0 := rfl

instance : CommRing K where
  add := (· + ·)
  add_assoc := by intros; ext <;> simp <;> ring
  zero := 0
  zero_add := by intros; ext <;> simp
  add_zero := by intros; ext <;> simp
  add_comm := by intros; ext <;> simp <;> ring
  mul := (· * ·)
  left_distrib := by intros; ext <;> simp <;> ring
  right_distrib := by intros; ext <;> simp <;> ring
  zero_mul := by intros; ext <;> simp
  mul_zero := by intros; ext <;> simp
  mul_assoc := by intros; ext <;> simp <;> ring
  one := 1
  one_mul := by intros; ext <;> simp
  mul_one := by intros; ext <;> simp
  neg := (- ·)
  mul_comm := by intros; ext <;> simp <;> ring
  neg_add_cancel := by intros; ext <;> simp
  nsmul := nsmulRec
  zsmul := zsmulRec

@[simp] theorem sub_a (x y : K) : (x - y).a = x.a - y.a := by
  rw [sub_eq_add_neg, sub_eq_add_neg]; simp
@[simp] theorem sub_b (x y : K) : (x - y).b = x.b - y.b := by
  rw [sub_eq_add_neg, sub_eq_add_neg]; simp

@[simp] theorem natCast_a (n : ℕ) : ((n : ℕ) : K).a = (n : ℚ) := by
  induction n with
  | zero => simp
  | succ n ih => rw [Nat.cast_succ]; simp [ih]

@[simp] theorem natCast_b (n : ℕ) : ((n : ℕ) : K).b = 0 := by
  induction n with
  | zero => simp
  | succ n ih => rw [Nat.cast_succ]; simp [ih]

@[simp] theorem ofNat_a (n : ℕ) [n.AtLeastTwo] : (OfNat.ofNat n : K).a = OfNat.ofNat n := by
  rw [← Nat.cast_ofNat (R := K), natCast_a, Nat.cast_ofNat]

@[simp] theorem ofNat_b (n : ℕ) [n.AtLeastTwo] : (OfNat.ofNat n : K).b = 0 := by
  rw [← Nat.cast_ofNat (R := K), natCast_b]

/-- Embedding of ℚ into `K`. -/
def ofQ (q : ℚ) : K := ⟨q, 0⟩

@[simp] theorem ofQ_a (q : ℚ) : (ofQ q).a = q := rfl
@[simp] theorem ofQ_b (q : ℚ) : (ofQ q).b = 0 := rfl

/-- The element `√(1/2) = (1/2)·√2` of ℚ(√2); `np.sqrt(0.5)` in the source. -/
def sqrtHalf : K := ⟨0, 1/2⟩

@[simp] theorem sqrtHalf_a : sqrtHalf.a = 0 := rfl
@[simp] theorem sqrtHalf_b : sqrtHalf.b = 1/2 := rfl

theorem sqrtHalf_mul_self : sqrtHalf * sqrtHalf = ofQ (1/2) := by
  ext <;> simp

/-- Decidable strict positivity of `a + b·√2`, by sign analysis of the two
components (used to embed the source's `np.sum(ha*hb) > 0` branch test). -/
def pos (x : K) : Prop :=
  (0 ≤ x.a ∧ 0 ≤ x.b ∧ (x.a ≠ 0 ∨ x.b ≠ 0)) ∨
  (0 ≤ x.a ∧ x.b < 0 ∧ 2 * x.b ^ 2 < x.a ^ 2) ∨
  (x.a < 0 ∧ 0 < x.b ∧ x.a ^ 2 < 2 * x.b ^ 2)

instance (x : K) : Decidable (pos x) := by unfold pos; infer_instance

/-- Soundness of `K.pos`: in any linear ordered field containing an element
`s` with `s^2 = 2` and `0 < s` (e.g. `√2` in ℝ), `pos ⟨a, b⟩` holds exactly
when `a + b·s > 0`.  This ties the decidable branch test used in the
embedding to the real-number comparison performed by the source. -/
theorem pos_iff {F : Type} [LinearOrderedField F] (s : F) (hs : s ^ 2 = 2)
    (hspos : 0 < s) (x : K) : pos x ↔ 0 < (x.a : F) + (x.b : F) * s := by
  obtain ⟨xa, xb⟩ := x
  simp only [pos]
  constructor
  · rintro (⟨h1, h2, h3⟩ | ⟨h1, h2, h3⟩ | ⟨h1, h2, h3⟩)
    · rcases h3 with h | h
      · have ha : (0:F) < (xa : F) := by
          have : (0:ℚ) < xa := lt_of_le_of_ne h1 (Ne.symm h)
          exact_mod_cast this
        have hb : (0:F) ≤ (xb : F) * s := by
          have : (0:F) ≤ (xb : F) := by exact_mod_cast h2
          positivity
        linarith
      · have hb : (0:F) < (xb : F) * s := by
          have : (0:F) < (xb : F) := by
            have : (0:ℚ) < xb := lt_of_le_of_ne h2 (Ne.symm h)
            exact_mod_cast this
          positivity
        have ha : (0:F) ≤ (xa : F) := by exact_mod_cast h1
        linarith
    · -- a ≥ 0, b < 0, a² > 2b² :  a > -b·s since a² > (−b·s)²
      have ha : (0:F) ≤ (xa : F) := by exact_mod_cast h1
      have hb : (xb : F) < 0 := by exact_mod_cast h2
      have hsq : 2 * (xb : F) ^ 2 < (xa : F) ^ 2 := by exact_mod_cast h3
      nlinarith [sq_nonneg ((xa : F) + (xb : F) * s), sq_nonneg ((xa : F) - (xb : F) * s)]
    · have ha : (xa : F) < 0 := by exact_mod_cast h1
      have hb : (0:F) < (xb : F) := by exact_mod_cast h2
      have hsq : (xa : F) ^ 2 < 2 * (xb : F) ^ 2 := by exact_mod_cast h3
      have hbs : 0 < (xb : F) * s := mul_pos hb hspos
      have key : ((xb : F) * s) ^ 2 = 2 * (xb : F) ^ 2 := by rw [mul_pow, hs]; ring
      by_contra hcon
      push_neg at hcon
      have h1' : (xb : F) * s ≤ -(xa : F) := by linarith
      have h2' : ((xb : F) * s) ^ 2 ≤ (-(xa : F)) ^ 2 :=
        pow_le_pow_left₀ (le_of_lt hbs) h1' 2
      rw [key, neg_pow] at h2'
      simp at h2'
      linarith
  · intro h
    by_cases ha : 0 ≤ xa <;> by_cases hb : 0 ≤ xb
    · left
      refine ⟨ha, hb, ?_⟩
      by_contra hcon
      push_neg at hcon
      obtain ⟨h0a, h0b⟩ := hcon
      rw [h0a, h0b] at h
      simp at h
    · right; left
      push_neg at hb
      refine ⟨ha, hb, ?_⟩
      have ha' : (0:F) ≤ (xa : F) := by exact_mod_cast ha
      have hb' : (xb : F) < 0 := by exact_mod_cast hb
      have hbs : 0 ≤ (-(xb : F)) * s := by
        apply mul_nonneg _ (le_of_lt hspos)
        linarith
      have h1' : (-(xb : F)) * s < (xa : F) := by nlinarith
      have h2' : ((-(xb : F)) * s) ^ 2 < (xa : F) ^ 2 := by
        apply pow_lt_pow_left₀ h1' hbs
        norm_num
      have key : ((-(xb : F)) * s) ^ 2 = 2 * (xb : F) ^ 2 := by rw [mul_pow, hs]; ring
      rw [key] at h2'
      exact_mod_cast h2'
    · right; right
      push_neg at ha
      have hb' : 0 < xb := by
        rcases lt_or_eq_of_le hb with h' | h'
        · exact h'
        · exfalso
          have ha' : (xa : F) < 0 := by exact_mod_cast ha
          rw [← h'] at h
          simp at h
          linarith
      refine ⟨ha, hb', ?_⟩
      have ha' : (xa : F) < 0 := by exact_mod_cast ha
      have hb'' : (0:F) < (xb : F) := by exact_mod_cast hb'
      have : (xa : F) ^ 2 < 2 * (xb : F) ^ 2 := by nlinarith
      exact_mod_cast this
    · exfalso
      push_neg at ha hb
      have ha' : (xa : F) < 0 := by exact_mod_cast ha
      have hb' : (xb : F) < 0 := by exact_mod_cast hb
      nlinarith

end K

/-- Exact complex number over `K` (models the complex matrices produced by
`q2c` and consumed by `c2q`). -/
structure KC where
  re : K
  im : K
deriving DecidableEq, Repr

namespace KC

@[ext] theorem extKC {x y : KC} (hre : x.re = y.re) (him : x.im = y.im) : x = y := by
  cases x; cases y; simp_all

instance : Add KC := ⟨fun x y => ⟨x.re + y.re, x.im + y.im⟩⟩
instance : Sub KC := ⟨fun x y => ⟨x.re - y.re, x.im - y.im⟩⟩
instance : Neg KC := ⟨fun x => ⟨-x.re, -x.im⟩⟩
instance : Mul KC := ⟨fun x y => ⟨x.re * y.re - x.im * y.im, x.re * y.im + x.im * y.re⟩⟩
instance : Zero KC := ⟨⟨0, 0⟩⟩

@[simp] theorem add_re (x y : KC) : (x + y).re = x.re + y.re := rfl
@[simp] theorem add_im (x y : KC) : (x + y).im = x.im + y.im := rfl
@[simp] theorem sub_re (x y : KC) : (x - y).re = x.re - y.re := rfl
@[simp] theorem sub_im (x y : KC) : (x - y).im = x.im - y.im := rfl
@[simp] theorem mul_re (x y : KC) : (x * y).re = x.re * y.re - x.im * y.im := rfl
@[simp] theorem mul_im (x y : KC) : (x * y).im = x.re * y.im + x.im * y.re := rfl
@[simp] theorem zero_re : (0 : KC).re = 0 := rfl
@[simp] theorem zero_im : (0 : KC).im = 0 := rfl

/-- Embed a real scalar as a complex number. -/
def ofK (k : K) : KC := ⟨k, 0⟩

@[simp] theorem ofK_re (k : K) : (ofK k).re = k := rfl
@[simp] theorem ofK_im (k : K) : (ofK k).im = 0 := rfl

end KC

/-- An image/matrix: a total function from (row, col) to `K`; actual row and
column counts are tracked separately, mirroring `ndarray.shape`. -/
def Mat : Type := ℕ → ℕ → K

/-- Pointwise sum of two matrices. -/
def madd (A B : Mat) : Mat := fun i j => A i j + B i j

/-- Transpose (`.T` in the source). -/
def tr (A : Mat) : Mat := fun i j => A j i

/-- The all-zero matrix (`np.zeros`). -/
def mzero : Mat := fun _ _ => 0

/-- Equality of two matrices on an `r × c` window: the meaning of `==` for
arrays of the given shape. -/
def MatEqOn (r c : ℕ) (A B : Mat) : Prop :=
  ∀ i < r, ∀ j < c, A i j = B i j

theorem MatEqOn.refl (r c : ℕ) (A : Mat) : MatEqOn r c A A := fun _ _ _ _ => rfl

/-! ## The boundary reflector (`reflect`, lowlevel.py lines 57-84)

The source reflects an array about `minx` and `maxx`: one masked reflection
in `maxx`, then a `while np.any(y < minx)` loop whose body reflects the
out-of-range entries in `minx` and then in `maxx`.  Masked assignment only
touches out-of-range entries, so the loop acts elementwise; we embed it as a
fuel-driven iteration (`reflectIter`) whose guard mirrors the `while`
condition, with fuel (`reflFuel`) computed from the entries, and prove the
fuel sufficient whenever `minx < maxx`. -/

/-- Masked reflection about the upper bound: `y[y > maxx] = 2*maxx - y`. -/
def reflMaxV (maxx v : ℚ) : ℚ := if maxx < v then 2 * maxx - v else v

/-- Masked reflection about the lower bound: `y[y < minx] = 2*minx - y`. -/
def reflMinV (minx v : ℚ) : ℚ := if v < minx then 2 * minx - v else v

/-- One body of the `while` loop: reflect in `minx`, then in `maxx`. -/
def reflStepV (minx maxx v : ℚ) : ℚ := reflMaxV maxx (reflMinV minx v)

/-- The `while np.any(y < minx)` guard. -/
def anyBelow (minx : ℚ) (y : List ℚ) : Prop := ∃ v ∈ y, v < minx

instance (minx : ℚ) (y : List ℚ) : Decidable (anyBelow minx y) := by
  unfold anyBelow; infer_instance

/-- One loop body applied to the whole array. -/
def reflStep (minx maxx : ℚ) (y : List ℚ) : List ℚ :=
  (y.map (reflMinV minx)).map (reflMaxV maxx)

/-- The `while` loop, driven by fuel: stops as soon as the guard fails. -/
def reflectIter (minx maxx : ℚ) : ℕ → List ℚ → List ℚ
  | 0, y => y
  | n + 1, y => if anyBelow minx y then reflectIter minx maxx n (reflStep minx maxx y) else y

/-- Fuel sufficient to fold one value into range (number of double
reflections needed, from the size of its excursion below `minx`). -/
def reflFuelV (minx maxx v : ℚ) : ℕ := (⌈(minx - v) / (2 * (maxx - minx))⌉).toNat

/-- Fuel sufficient for a whole array. -/
def reflFuel (minx maxx : ℚ) (y : List ℚ) : ℕ :=
  (y.map (reflFuelV minx maxx)).foldr max 0

/-- Embedding of `reflect(x, minx, maxx)`: initial reflection in `maxx`,
then the `while` loop. -/
def reflect (x : List ℚ) (minx maxx : ℚ) : List ℚ :=
  let y := x.map (reflMaxV maxx)
  reflectIter minx maxx (reflFuel minx maxx y) y

theorem reflMaxV_le (maxx v : ℚ) (h : v ≤ maxx ∨ maxx < v) : reflMaxV maxx v ≤ maxx := by
  unfold reflMaxV
  rcases h with h | h
  · simp [not_lt.mpr h, h]
  · simp [h]; linarith

theorem reflMaxV_le' (maxx v : ℚ) : reflMaxV maxx v ≤ maxx :=
  reflMaxV_le maxx v (le_or_lt v maxx)

theorem reflStepV_le (minx maxx v : ℚ) : reflStepV minx maxx v ≤ maxx :=
  reflMaxV_le' maxx _

theorem reflStepV_fix (minx maxx v : ℚ) (h1 : minx ≤ v) (h2 : v ≤ maxx) :
    reflStepV minx maxx v = v := by
  unfold reflStepV reflMinV reflMaxV
  simp [not_lt.mpr h1, not_lt.mpr h2]

theorem reflStepV_iterate_fix (minx maxx v : ℚ) (h1 : minx ≤ v) (h2 : v ≤ maxx) (n : ℕ) :
    (reflStepV minx maxx)^[n] v = v :=
  Function.iterate_fixed (reflStepV_fix minx maxx v h1 h2) n

/-- Core termination property of one value: with valid bounds and fuel at
least the excursion count, iterating the loop body lands the value in range. -/
theorem reflStepV_reaches (minx maxx : ℚ) (hlt : minx < maxx) :
    ∀ n : ℕ, ∀ v : ℚ, v ≤ maxx → reflFuelV minx maxx v ≤ n →
      minx ≤ (reflStepV minx maxx)^[n] v ∧ (reflStepV minx maxx)^[n] v ≤ maxx := by
  have hden : (0:ℚ) < 2 * (maxx - minx) := by linarith
  intro n
  induction n with
  | zero =>
    intro v hv hf
    simp only [Function.iterate_zero, id]
    refine ⟨?_, hv⟩
    unfold reflFuelV at hf
    simp only [Nat.le_zero, Int.toNat_eq_zero] at hf
    have hceil : ((minx - v) / (2 * (maxx - minx))) ≤ 0 := by
      have := Int.ceil_le.mp hf
      exact_mod_cast this
    have hnum : minx - v ≤ 0 := by
      have := (div_nonpos_iff.mp hceil)
      rcases this with ⟨h1, h2⟩ | ⟨h1, h2⟩
      · linarith
      · exact h1
    linarith
  | succ n ih =>
    intro v hv hf
    by_cases hge : minx ≤ v
    · rw [reflStepV_iterate_fix minx maxx v hge hv]
      exact ⟨hge, hv⟩
    · push_neg at hge
      by_cases hcase : 2 * minx - v ≤ maxx
      · -- one reflection in minx suffices; it lands in range and stays fixed
        have hstep : reflStepV minx maxx v = 2 * minx - v := by
          unfold reflStepV reflMinV reflMaxV
          simp [hge, not_lt.mpr hcase]
        have hin1 : minx ≤ 2 * minx - v := by linarith
        rw [Function.iterate_succ_apply, hstep,
          reflStepV_iterate_fix minx maxx _ hin1 hcase]
        exact ⟨hin1, hcase⟩
      · -- double reflection: the value advances by 2*(maxx - minx)
        push_neg at hcase
        have hstep : reflStepV minx maxx v = v + 2 * (maxx - minx) := by
          unfold reflStepV reflMinV reflMaxV
          simp [hge, hcase]
          ring
        have hw : v + 2 * (maxx - minx) ≤ maxx := by
          have := reflStepV_le minx maxx v
          rwa [hstep] at this
        have hfw : reflFuelV minx maxx (v + 2 * (maxx - minx)) ≤ n := by
          unfold reflFuelV at hf ⊢
          have harg : (minx - (v + 2 * (maxx - minx))) / (2 * (maxx - minx)) =
              (minx - v) / (2 * (maxx - minx)) - 1 := by
            field_simp
            ring
          rw [harg]
          have hceil : ⌈(minx - v) / (2 * (maxx - minx)) - 1⌉ =
              ⌈(minx - v) / (2 * (maxx - minx))⌉ - 1 := by
            exact_mod_cast Int.ceil_sub_int ((minx - v) / (2 * (maxx - minx))) 1
          rw [hceil]
          omega
        rw [Function.iterate_succ_apply, hstep]
        exact ih _ hw hfw

theorem reflStep_map (minx maxx : ℚ) (y : List ℚ) :
    reflStep minx maxx y = y.map (reflStepV minx maxx) := by
  unfold reflStep reflStepV
  rw [List.map_map]
  rfl

theorem reflectIter_map (minx maxx : ℚ) (n : ℕ) (y : List ℚ)
    (hy : ∀ v ∈ y, v ≤ maxx) :
    reflectIter minx maxx n y = y.map ((reflStepV minx maxx)^[n]) := by
  induction n generalizing y with
  | zero => simp [reflectIter]
  | succ n ih =>
    unfold reflectIter
    by_cases hany : anyBelow minx y
    · rw [if_pos hany, reflStep_map, ih]
      · rw [List.map_map]
        apply List.map_congr_left
        intro a _
        simp [Function.comp, Function.iterate_succ_apply]
      · intro v hv
        rw [List.mem_map] at hv
        obtain ⟨w, _, rfl⟩ := hv
        exact reflStepV_le minx maxx w
    · rw [if_neg hany]
      unfold anyBelow at hany
      push_neg at hany
      have hfix : ∀ a ∈ y, (reflStepV minx maxx)^[n+1] a = a := by
        intro a ha
        exact reflStepV_iterate_fix minx maxx a (hany a ha) (hy a ha) _
      rw [List.map_congr_left hfix]
      simp

theorem le_foldr_max (l : List ℕ) (a : ℕ) (ha : a ∈ l) : a ≤ l.foldr max 0 := by
  induction l with
  | nil => cases ha
  | cons b l ih =>
    rcases List.mem_cons.mp ha with rfl | h
    · exact le_max_left _ _
    · exact le_trans (ih h) (le_max_right _ _)

/-- Explicit form of `reflect`: each entry is the iterated loop body applied
to the initially `maxx`-reflected entry. -/
theorem reflect_eq_map (x : List ℚ) (minx maxx : ℚ) :
    reflect x minx maxx = x.map (fun v =>
      (reflStepV minx maxx)^[reflFuel minx maxx (x.map (reflMaxV maxx))] (reflMaxV maxx v)) := by
  unfold reflect
  rw [reflectIter_map]
  · rw [List.map_map]
    rfl
  · intro v hv
    rw [List.mem_map] at hv
    obtain ⟨w, _, rfl⟩ := hv
    exact reflMaxV_le' maxx w

theorem reflect_mem_range (x : List ℚ) (minx maxx : ℚ) (hlt : minx < maxx) :
    ∀ v ∈ reflect x minx maxx, minx ≤ v ∧ v ≤ maxx := by
  intro v hv
  rw [reflect_eq_map] at hv
  rw [List.mem_map] at hv
  obtain ⟨w, hw, rfl⟩ := hv
  apply reflStepV_reaches minx maxx hlt _ _ (reflMaxV_le' maxx w)
  apply le_foldr_max
  rw [List.map_map]
  exact List.mem_map.mpr ⟨w, hw, rfl⟩

theorem reflectIter_of_done (minx maxx : ℚ) (y : List ℚ) (h : ¬ anyBelow minx y) :
    ∀ n, reflectIter minx maxx n y = y := by
  intro n
  cases n with
  | zero => rfl
  | succ n => simp [reflectIter, h]

theorem reflectIter_succ_left (minx maxx : ℚ) (n : ℕ) (y : List ℚ) :
    reflectIter minx maxx (n + 1) y =
      if anyBelow minx y then reflectIter minx maxx n (reflStep minx maxx y) else y := rfl

theorem reflectIter_add (minx maxx : ℚ) (a b : ℕ) (y : List ℚ) :
    reflectIter minx maxx (a + b) y = reflectIter minx maxx b (reflectIter minx maxx a y) := by
  induction a generalizing y with
  | zero =>
    rw [Nat.zero_add]
    rfl
  | succ a ih =>
    by_cases h : anyBelow minx y
    · have h1 : a + 1 + b = (a + b) + 1 := by omega
      rw [h1, reflectIter_succ_left, if_pos h, reflectIter_succ_left, if_pos h]
      exact ih _
    · rw [reflectIter_of_done minx maxx y h, reflectIter_of_done minx maxx y h]
      exact (reflectIter_of_done minx maxx y h b).symm

/-- Claim C7: for every index sequence `x` (including values outside
`[minx, maxx]`) with `minx < maxx`, every element of `reflect x minx maxx`
lies within `[minx, maxx]`; the output has the same length as the input; and
every element of `x` already within `[minx, maxx]` is returned unchanged at
its position (`reflect` is the identity on in-range values).  The embedding
operates on a copy, so the input sequence itself is never modified. -/
theorem claim7_reflect_range (x : List ℚ) (minx maxx : ℚ) (h : minx < maxx) :
    (∀ v ∈ reflect x minx maxx, minx ≤ v ∧ v ≤ maxx) ∧
    (reflect x minx maxx).length = x.length ∧
    (∀ (i : ℕ) (v : ℚ), x[i]? = some v → minx ≤ v → v ≤ maxx →
      (reflect x minx maxx)[i]? = some v) := by
  refine ⟨reflect_mem_range x minx maxx h, ?_, ?_⟩
  · rw [reflect_eq_map, List.length_map]
  · intro i v hx hv1 hv2
    rw [reflect_eq_map, List.getElem?_map, hx]
    simp only [Option.map_some']
    congr 1
    have hmax : reflMaxV maxx v = v := by
      unfold reflMaxV
      simp [not_lt.mpr hv2]
    rw [hmax]
    exact reflStepV_iterate_fix minx maxx v hv1 hv2 _

/-- Witness for C7 at a concrete out-of-range input. -/
theorem claim7_witness :
    (∀ v ∈ reflect [2, -3, 5] 0 4, 0 ≤ v ∧ v ≤ 4) ∧
    (reflect [2, -3, 5] 0 4).length = ([2, -3, 5] : List ℚ).length ∧
    (∀ (i : ℕ) (v : ℚ), ([2, -3, 5] : List ℚ)[i]? = some v → 0 ≤ v → v ≤ 4 →
      (reflect [2, -3, 5] 0 4)[i]? = some v) :=
  claim7_reflect_range [2, -3, 5] 0 4 (by norm_num)

/-- Claim C10: with `minx < maxx`, the `while` loop inside `reflect`
terminates: there is a pass count after which the loop guard
`np.any(y < minx)` fails, and running any further passes leaves the result
unchanged, so `reflect` is a well-defined total function there. -/
theorem claim10_reflect_terminates (x : List ℚ) (minx maxx : ℚ) (h : minx < maxx) :
    ∃ n, ¬ anyBelow minx (reflectIter minx maxx n (x.map (reflMaxV maxx))) ∧
      ∀ m, n ≤ m → reflectIter minx maxx m (x.map (reflMaxV maxx)) =
        reflectIter minx maxx n (x.map (reflMaxV maxx)) := by
  refine ⟨reflFuel minx maxx (x.map (reflMaxV maxx)), ?_, ?_⟩
  · intro hany
    obtain ⟨v, hv, hlt⟩ := hany
    have hv' : v ∈ reflect x minx maxx := hv
    have := (reflect_mem_range x minx maxx h v hv').1
    linarith
  · intro m hm
    obtain ⟨k, rfl⟩ := Nat.exists_eq_add_of_le hm
    rw [reflectIter_add]
    apply reflectIter_of_done
    intro hany
    obtain ⟨v, hv, hlt⟩ := hany
    have hv' : v ∈ reflect x minx maxx := hv
    have := (reflect_mem_range x minx maxx h v hv').1
    linarith

/-- Witness for C10 at a concrete input. -/
theorem claim10_witness :
    ∃ n, ¬ anyBelow 0 (reflectIter 0 4 n ([-9, 1, 11].map (reflMaxV 4))) ∧
      ∀ m, n ≤ m → reflectIter 0 4 m ([-9, 1, 11].map (reflMaxV 4)) =
        reflectIter 0 4 n ([-9, 1, 11].map (reflMaxV 4)) :=
  claim10_reflect_terminates [-9, 1, 11] 0 4 (by norm_num)

/-! ## Closed form of the reflected index map

All filtering routines call `reflect` on an integer index range with the
half-integer bounds `(-0.5, r-0.5)`; on such inputs every reflection is
exact integer arithmetic and the result is `2r`-periodic folding.
`foldIdx` is that closed form; `reflect_int_eq_foldIdx` below proves it
agrees with the loop, so the filter embeddings may use it directly. -/

/-- Fold an integer index into `[0, r)` by reflection about `-0.5` and
`r - 0.5` (the symmetric extension index map of the source). -/
def foldIdx (r : ℕ) (t : ℤ) : ℕ :=
  (if t % (2 * (r : ℤ)) < (r : ℤ) then t % (2 * (r : ℤ))
   else 2 * (r : ℤ) - 1 - t % (2 * (r : ℤ))).toNat

theorem foldIdx_congr (r : ℕ) (a b : ℤ) (h : a % (2 * (r : ℤ)) = b % (2 * (r : ℤ))) :
    foldIdx r a = foldIdx r b := by
  unfold foldIdx
  rw [h]

theorem foldIdx_add_period (r : ℕ) (t : ℤ) (k : ℤ) :
    foldIdx r (t + 2 * (r : ℤ) * k) = foldIdx r t := by
  apply foldIdx_congr
  rw [Int.add_mul_emod_self_left]

/-- Embedding of `colfilter(X, h)` (values; shapes are tracked by
`colfilterShape`).  `r` is the row count of `X`. -/
def colfilter (r : ℕ) (X : Mat) (h : List K) : Mat := fun i j =>
  ∑ k ∈ Finset.range h.length,
    h.getD k 0 *
      X (foldIdx r ((i : ℤ) + (h.length : ℤ) - 1 - (k : ℤ) - ((h.length / 2 : ℕ) : ℤ))) j

/-- Output row count of `colfilter`: the `valid` convolution length
`abs((r + 2*(m//2)) - m) + 1` of the source. -/
def colfilterRows (r m : ℕ) : ℕ :=
  ((r : ℤ) + 2 * ((m / 2 : ℕ) : ℤ) - (m : ℤ)).natAbs + 1

/-- Output shape of `colfilter` on an `r × c` input with an `m`-tap kernel. -/
def colfilterShape (r c m : ℕ) : ℕ × ℕ := (colfilterRows r m, c)

/-- Claim C4: for every image with `r ≥ 1` rows and every kernel of length
`m`, `colfilter` returns a matrix with the same row count `r` when `m` is
odd and `r + 1` rows when `m` is even; the column count is unchanged. -/
theorem claim4_colfilter_shape (r c m : ℕ) (hr : 1 ≤ r) :
    (m % 2 = 1 → colfilterShape r c m = (r, c)) ∧
    (m % 2 = 0 → colfilterShape r c m = (r + 1, c)) := by
  constructor <;> intro hm <;> unfold colfilterShape colfilterRows <;> congr 1 <;> omega

/-- Witness for C4 with a 5-tap and (via the even clause being vacuous) a
concrete odd kernel on a 4-row image. -/
theorem claim4_witness :
    (5 % 2 = 1 → colfilterShape 4 7 5 = (4, 7)) ∧
    (5 % 2 = 0 → colfilterShape 4 7 5 = (4 + 1, 7)) :=
  claim4_colfilter_shape 4 7 5 (by norm_num)

/-- The branch test `np.sum(ha*hb)` of `coldfilt`/`colifilt`. -/
def filtDot (ha hb : List K) : K :=
  ∑ k ∈ Finset.range ha.length, ha.getD k 0 * hb.getD k 0

/-- Embedding of `coldfilt(X, ha, hb)` values on an `r`-row input (the
decimating dual filter; `r` must be a multiple of 4 for the shapes to be
meaningful — the checked wrapper `coldfiltChecked` enforces this).

Row `i` interleaves the `ha` polyphase pair (on rows `s1`) and the `hb`
polyphase pair (on rows `s2`); for `t = arange(5, r+2m-2, 4)` and
`xe[w] = foldIdx r (w - m)`, output entry `u` of e.g.
`_column_convolve(X[xe[t-1]], hao)` is
`∑ k < m/2, ha[2k] * X (foldIdx r (4*(u + m/2 - 1 - k) + 5 - 1 - m))`. -/
def coldfilt (r : ℕ) (X : Mat) (ha hb : List K) : Mat := fun i j =>
  let m := ha.length
  let mh := m / 2
  let u := i / 2
  let aSide : Bool := if K.pos (filtDot ha hb) then i % 2 == 0 else i % 2 == 1
  if aSide then
    (∑ k ∈ Finset.range mh, ha.getD (2 * k) 0 *
        X (foldIdx r (4 * ((u : ℤ) + (mh : ℤ) - 1 - (k : ℤ)) + 4 - (m : ℤ))) j) +
    (∑ k ∈ Finset.range mh, ha.getD (2 * k + 1) 0 *
        X (foldIdx r (4 * ((u : ℤ) + (mh : ℤ) - 1 - (k : ℤ)) + 2 - (m : ℤ))) j)
  else
    (∑ k ∈ Finset.range mh, hb.getD (2 * k) 0 *
        X (foldIdx r (4 * ((u : ℤ) + (mh : ℤ) - 1 - (k : ℤ)) + 5 - (m : ℤ))) j) +
    (∑ k ∈ Finset.range mh, hb.getD (2 * k + 1) 0 *
        X (foldIdx r (4 * ((u : ℤ) + (mh : ℤ) - 1 - (k : ℤ)) + 3 - (m : ℤ))) j)

/-- Embedding of the general (non-short-circuit) path of
`colifilt(X, ha, hb)` on an `r`-row input: the interpolating dual filter.
`xe[w] = foldIdx r (w - m/2)`; the branch is on the parity of `m/2`, with
`t = arange(3, r+m, 2)` (even branch) or `t = arange(2, r+m-1, 2)` (odd
branch), `ta`/`tb` chosen by the sign of `sum(ha*hb)`, and the four
polyphase convolutions scattered to rows `s, s+1, s+2, s+3`. -/
def colifiltGeneral (r : ℕ) (X : Mat) (ha hb : List K) : Mat := fun i j =>
  let m := ha.length
  let mh := m / 2
  let v := i / 4
  let taOff : ℤ := if K.pos (filtDot ha hb) then 0 else -1
  let tbOff : ℤ := if K.pos (filtDot ha hb) then -1 else 0
  if mh % 2 = 0 then
    let conv := fun (f : ℕ → K) (off : ℤ) =>
      ∑ k ∈ Finset.range mh, f k *
        X (foldIdx r ((3 : ℤ) + 2 * ((v : ℤ) + (mh : ℤ) - 1 - (k : ℤ)) + off - (mh : ℤ))) j
    if i % 4 = 0 then conv (fun k => ha.getD (2 * k + 1) 0) (tbOff - 2)
    else if i % 4 = 1 then conv (fun k => hb.getD (2 * k + 1) 0) (taOff - 2)
    else if i % 4 = 2 then conv (fun k => ha.getD (2 * k) 0) tbOff
    else conv (fun k => hb.getD (2 * k) 0) taOff
  else
    let conv := fun (f : ℕ → K) (off : ℤ) =>
      ∑ k ∈ Finset.range mh, f k *
        X (foldIdx r ((2 : ℤ) + 2 * ((v : ℤ) + (mh : ℤ) - 1 - (k : ℤ)) + off - (mh : ℤ))) j
    if i % 4 = 0 then conv (fun k => ha.getD (2 * k) 0) tbOff
    else if i % 4 = 1 then conv (fun k => hb.getD (2 * k) 0) taOff
    else if i % 4 = 2 then conv (fun k => ha.getD (2 * k + 1) 0) tbOff
    else conv (fun k => hb.getD (2 * k + 1) 0) taOff

/-- The fast-path test of `colifilt`:
`not np.any(np.nonzero(X[:])[0])`, i.e. the `r × c` input is identically
zero. -/
def allZero (r c : ℕ) (X : Mat) : Prop := ∀ i < r, ∀ j < c, X i j = 0

instance (r c : ℕ) (X : Mat) : Decidable (allZero r c X) := by
  unfold allZero; infer_instance

/-- Embedding of `colifilt(X, ha, hb)` including the zero short-circuit
(`Modified to be fast if X = 0`): on an all-zero input the pre-allocated
zero output is returned without convolving. -/
def colifilt (r c : ℕ) (X : Mat) (ha hb : List K) : Mat :=
  if allZero r c X then mzero else colifiltGeneral r X ha hb

/-- Error message of the row-count check in `coldfilt`. -/
def msgRows4 : String := "No. of rows in X must be a multiple of 4"

/-- Error message of the row-count check in `colifilt`. -/
def msgRows2 : String := "No. of rows in X must be a multiple of 2"

/-- Error message of the filter-shape check. -/
def msgShapes : String := "Shapes of ha and hb must be the same"

/-- Error message of the filter-length parity check. -/
def msgLengths : String := "Lengths of ha and hb must be even"

/-- `coldfilt` with its precondition checks and output shape, mirroring the
`raise ValueError` statements of the source in order. -/
def coldfiltChecked (r c : ℕ) (X : Mat) (ha hb : List K) : Except String (ℕ × ℕ × Mat) :=
  if r % 4 ≠ 0 then .error msgRows4
  else if ha.length ≠ hb.length then .error msgShapes
  else if ha.length % 2 ≠ 0 then .error msgLengths
  else .ok (r / 2, c, coldfilt r X ha hb)

/-- `colifilt` with its precondition checks and output shape. -/
def colifiltChecked (r c : ℕ) (X : Mat) (ha hb : List K) : Except String (ℕ × ℕ × Mat) :=
  if r % 2 ≠ 0 then .error msgRows2
  else if ha.length ≠ hb.length then .error msgShapes
  else if ha.length % 2 ≠ 0 then .error msgLengths
  else .ok (r * 2, c, colifilt r c X ha hb)

/-- Claim C6: `coldfilt` raises a `ValueError` exactly when the row count is
not a multiple of 4, or the filter shapes differ, or the common filter
length is odd; each of the three violations is reported with its own
distinct message (checked in source order), and no error is raised when all
three preconditions hold. -/
theorem claim6_coldfilt_errors (r c : ℕ) (X : Mat) (ha hb : List K) :
    ((∃ e, coldfiltChecked r c X ha hb = .error e) ↔
      (r % 4 ≠ 0 ∨ ha.length ≠ hb.length ∨ ha.length % 2 = 1)) ∧
    (r % 4 ≠ 0 → coldfiltChecked r c X ha hb = .error msgRows4) ∧
    (r % 4 = 0 → ha.length ≠ hb.length → coldfiltChecked r c X ha hb = .error msgShapes) ∧
    (r % 4 = 0 → ha.length = hb.length → ha.length % 2 = 1 →
      coldfiltChecked r c X ha hb = .error msgLengths) ∧
    msgRows4 ≠ msgShapes ∧ msgShapes ≠ msgLengths ∧ msgRows4 ≠ msgLengths := by
  refine ⟨?_, ?_, ?_, ?_, by decide, by decide, by decide⟩ <;>
    unfold coldfiltChecked <;> split_ifs with h1 h2 h3 <;> simp_all <;> omega

/-- Claim C5: for an `r × c` image with `r` divisible by 4 and an
equal-length even-length filter pair, `coldfilt` succeeds with an
`(r/2) × c` result, and `colifilt` applied to any `(r/2) × c` image with the
same filter pair succeeds with an `r × c` result: exact shape recovery. -/
theorem claim5_filter_pair_shapes (r c : ℕ) (X : Mat) (ha hb : List K)
    (h4 : r % 4 = 0) (hlen : ha.length = hb.length) (heven : ha.length % 2 = 0) :
    (∃ Y, coldfiltChecked r c X ha hb = .ok (r / 2, c, Y)) ∧
    (∀ X2 : Mat, ∃ Z, colifiltChecked (r / 2) c X2 ha hb = .ok (r, c, Z)) := by
  have heven' : hb.length % 2 = 0 := hlen ▸ heven
  constructor
  · refine ⟨coldfilt r X ha hb, ?_⟩
    simp [coldfiltChecked, h4, hlen, heven, heven']
  · intro X2
    refine ⟨colifilt (r / 2) c X2 ha hb, ?_⟩
    have h2 : (r / 2) % 2 = 0 := by omega
    have hmul : (r / 2) * 2 = r := by omega
    simp [colifiltChecked, h2, hlen, heven, heven', hmul]

/-- Witness for C5 at a concrete image/filter pair. -/
theorem claim5_witness :
    (∃ Y, coldfiltChecked 8 3 mzero [1, 1] [1, 1] = .ok (8 / 2, 3, Y)) ∧
    (∀ X2 : Mat, ∃ Z, colifiltChecked (8 / 2) 3 X2 [1, 1] [1, 1] = .ok (8, 3, Z)) :=
  claim5_filter_pair_shapes 8 3 mzero [1, 1] [1, 1] (by norm_num) rfl rfl

/-- Claim C9: on an identically zero input (with even row count and an
equal-length even-length filter pair), the short-circuit path of `colifilt`
returns exactly what the general convolution path returns — the all-zero
`2r × c` matrix; the fast path never changes the output. -/
theorem claim9_zero_fast_path (r c : ℕ) (ha hb : List K)
    (h2 : r % 2 = 0) (hlen : ha.length = hb.length) (heven : ha.length % 2 = 0) :
    MatEqOn (r * 2) c (colifilt r c mzero ha hb) (colifiltGeneral r mzero ha hb) := by
  intro i hi j hj
  have hz : allZero r c mzero := fun _ _ _ _ => rfl
  rw [colifilt, if_pos hz]
  unfold colifiltGeneral mzero
  split_ifs <;> simp

/-- Witness for C9 at a concrete shape/filter pair. -/
theorem claim9_witness :
    MatEqOn (6 * 2) 4 (colifilt 6 4 mzero [1, 1] [1, 1]) (colifiltGeneral 6 mzero [1, 1] [1, 1]) :=
  claim9_zero_fast_path 6 4 [1, 1] [1, 1] (by norm_num) rfl rfl

/-! ## The quad ↔ complex packer (`q2c`, `c2q`, transform2d.py) -/

/-- The scalar `j2[0] = sqrt(0.5) * 1`. -/
def j2c0 : KC := ⟨K.sqrtHalf, 0⟩

/-- The scalar `j2[1] = sqrt(0.5) * 1j`. -/
def j2c1 : KC := ⟨0, K.sqrtHalf⟩

/-- Embedding of `q2c(y)`: from the 2×2 quads `[[a, b], [c, d]]` of `y`
build `p = (a + jb)/√2`, `q = (d - jc)/√2` and return the two complex
subimages `(p - q, p + q)` (the bands `z[:,:,0]` and `z[:,:,1]`). -/
def q2c (y : Mat) : (ℕ → ℕ → KC) × (ℕ → ℕ → KC) :=
  (fun i j =>
      (KC.ofK (y (2 * i) (2 * j)) * j2c0 + KC.ofK (y (2 * i) (2 * j + 1)) * j2c1) -
      (KC.ofK (y (2 * i + 1) (2 * j + 1)) * j2c0 - KC.ofK (y (2 * i + 1) (2 * j)) * j2c1),
   fun i j =>
      (KC.ofK (y (2 * i) (2 * j)) * j2c0 + KC.ofK (y (2 * i) (2 * j + 1)) * j2c1) +
      (KC.ofK (y (2 * i + 1) (2 * j + 1)) * j2c0 - KC.ofK (y (2 * i + 1) (2 * j)) * j2c1))

/-- Embedding of `c2q(w, gain)`: scale the two complex planes by
`sqrt(0.5) * gain`, form `P = w0*sc0 + w1*sc1` and `Q = w0*sc0 - w1*sc1`,
and scatter `Re P, Im P, Im Q, -Re Q` to the four quad corners. -/
def c2q (w0 w1 : ℕ → ℕ → KC) (g0 g1 : K) : Mat := fun i j =>
  let sc0 := K.sqrtHalf * g0
  let sc1 := K.sqrtHalf * g1
  let P := w0 (i / 2) (j / 2) * KC.ofK sc0 + w1 (i / 2) (j / 2) * KC.ofK sc1
  let Q := w0 (i / 2) (j / 2) * KC.ofK sc0 - w1 (i / 2) (j / 2) * KC.ofK sc1
  if i % 2 = 0 then (if j % 2 = 0 then P.re else P.im)
  else (if j % 2 = 0 then Q.im else - Q.re)

/-- Round trip `c2q(q2c(y), [1, 1]) = y` pointwise (helper shared by the
claims; exact over ℚ(√2)). -/
theorem c2q_q2c (y : Mat) (i j : ℕ) : c2q (q2c y).1 (q2c y).2 1 1 i j = y i j := by
  have hi := Nat.mod_two_eq_zero_or_one i
  have hj := Nat.mod_two_eq_zero_or_one j
  rcases hi with hi2 | hi2 <;> rcases hj with hj2 | hj2
  · obtain ⟨a, rfl⟩ : ∃ a, i = 2 * a := ⟨i / 2, by omega⟩
    obtain ⟨b, rfl⟩ : ∃ b, j = 2 * b := ⟨j / 2, by omega⟩
    have ea : 2 * a / 2 = a := by omega
    have eb : 2 * b / 2 = b := by omega
    have pa : 2 * a % 2 = 0 := by omega
    have pb : 2 * b % 2 = 0 := by omega
    unfold c2q q2c j2c0 j2c1
    simp only [ea, eb, pa, pb, if_pos rfl]
    ext <;> simp <;> ring
  · obtain ⟨a, rfl⟩ : ∃ a, i = 2 * a := ⟨i / 2, by omega⟩
    obtain ⟨b, rfl⟩ : ∃ b, j = 2 * b + 1 := ⟨j / 2, by omega⟩
    have ea : 2 * a / 2 = a := by omega
    have eb : (2 * b + 1) / 2 = b := by omega
    have pa : 2 * a % 2 = 0 := by omega
    have pb : (2 * b + 1) % 2 = 1 := by omega
    unfold c2q q2c j2c0 j2c1
    simp only [ea, eb, pa, pb, if_pos rfl, if_neg (by omega : ¬(1 : ℕ) = 0)]
    ext <;> simp <;> ring
  · obtain ⟨a, rfl⟩ : ∃ a, i = 2 * a + 1 := ⟨i / 2, by omega⟩
    obtain ⟨b, rfl⟩ : ∃ b, j = 2 * b := ⟨j / 2, by omega⟩
    have ea : (2 * a + 1) / 2 = a := by omega
    have eb : 2 * b / 2 = b := by omega
    have pa : (2 * a + 1) % 2 = 1 := by omega
    have pb : 2 * b % 2 = 0 := by omega
    unfold c2q q2c j2c0 j2c1
    simp only [ea, eb, pa, pb, if_pos rfl, if_neg (by omega : ¬(1 : ℕ) = 0)]
    ext <;> simp <;> ring
  · obtain ⟨a, rfl⟩ : ∃ a, i = 2 * a + 1 := ⟨i / 2, by omega⟩
    obtain ⟨b, rfl⟩ : ∃ b, j = 2 * b + 1 := ⟨j / 2, by omega⟩
    have ea : (2 * a + 1) / 2 = a := by omega
    have eb : (2 * b + 1) / 2 = b := by omega
    have pa : (2 * a + 1) % 2 = 1 := by omega
    have pb : (2 * b + 1) % 2 = 1 := by omega
    unfold c2q q2c j2c0 j2c1
    simp only [ea, eb, pa, pb, if_neg (by omega : ¬(1 : ℕ) = 0)]
    ext <;> simp <;> ring

/-- Claim C2: for every real matrix with an even number of rows and
columns, `c2q (q2c y) [1,1]` reproduces `y` exactly: the quad-to-complex
packing followed by unit-gain complex-to-quad unpacking is the identity. -/
theorem claim2_c2q_q2c_roundtrip (hh ww : ℕ) (y : Mat) :
    MatEqOn (2 * hh) (2 * ww) (c2q (q2c y).1 (q2c y).2 1 1) y :=
  fun i _ j _ => c2q_q2c y i j

/-! ## The 2-D transform pipeline (transform2d.py) -/

/-- A matrix with its tracked shape. -/
structure StM where
  r : ℕ
  c : ℕ
  M : Mat

/-- One level's subband tensor `Yh[level]`: `(rows, cols, 6)` complex. -/
structure Subband where
  rows : ℕ
  cols : ℕ
  band : ℕ → ℕ → ℕ → KC

/-- A biorthogonal (level-1) filter tuple `(h0o, g0o, h1o, g1o)`. -/
structure BiortFilt where
  h0o : List K
  g0o : List K
  h1o : List K
  g1o : List K

/-- A q-shift (level ≥ 2) filter tuple
`(h0a, h0b, g0a, g0b, h1a, h1b, g1a, g1b)`. -/
structure QshiftFilt where
  h0a : List K
  h0b : List K
  g0a : List K
  g0b : List K
  h1a : List K
  h1b : List K
  g1a : List K
  g1b : List K

/-- Assemble one level's six subbands from the three quad-filtered real
images via `q2c`: bands `(0,5)` from the horizontal pair, `(2,3)` from the
vertical pair, `(1,4)` from the diagonal pair. -/
def mkSubband (rows cols : ℕ) (bH bV bD : Mat) : Subband :=
  { rows := rows, cols := cols,
    band := fun i j d =>
      if d = 0 then (q2c bH).1 i j else if d = 5 then (q2c bH).2 i j
      else if d = 2 then (q2c bV).1 i j else if d = 3 then (q2c bV).2 i j
      else if d = 1 then (q2c bD).1 i j else if d = 4 then (q2c bD).2 i j
      else 0 }

/-- Level-1 analysis (odd biort filters on columns then rows): returns the
new lowpass `LoLo` (with its shape per `colfilterRows`) and the level-1
subband tensor of shape `(LoLo.rows/2, LoLo.cols/2, 6)`. -/
def lvl1 (er ec : ℕ) (X : Mat) (b : BiortFilt) : StM × Subband :=
  let Lo := tr (colfilter er X b.h0o)
  let Hi := tr (colfilter er X b.h1o)
  let LoLo := tr (colfilter ec Lo b.h0o)
  let LoLoR := colfilterRows er b.h0o.length
  let LoLoC := colfilterRows ec b.h0o.length
  (⟨LoLoR, LoLoC, LoLo⟩,
    mkSubband (LoLoR / 2) (LoLoC / 2)
      (tr (colfilter ec Hi b.h0o)) (tr (colfilter ec Lo b.h1o)) (tr (colfilter ec Hi b.h1o)))

/-- Row/column count after the pre-level padding of levels ≥ 2 (extend by
two if not a multiple of 4). -/
def padTo4 (n : ℕ) : ℕ := if n % 4 ≠ 0 then n + 2 else n

/-- Index map of the symmetric pad `vstack((M[0], M, M[-1]))` applied only
when the size is not a multiple of 4. -/
def padIdx (n i : ℕ) : ℕ :=
  if n % 4 ≠ 0 then (if i = 0 then 0 else if i = n + 1 then n - 1 else i - 1) else i

/-- Pad a matrix on both axes as `dtwavexfm2` does before a level ≥ 2. -/
def padMat (lr lc : ℕ) (M : Mat) : Mat := fun i j => M (padIdx lr i) (padIdx lc j)

/-- One level ≥ 2 of analysis (even q-shift filters, decimating): returns
the new lowpass, the level's subband tensor, and (instrumentation for the
shape invariant) the dimensions of the padded lowpass that fed the level. -/
def lvl2 (q : QshiftFilt) (st : StM) : StM × Subband × (ℕ × ℕ) :=
  let pr := padTo4 st.r
  let pc := padTo4 st.c
  let P := padMat st.r st.c st.M
  let Lo := tr (coldfilt pr P q.h0b q.h0a)
  let Hi := tr (coldfilt pr P q.h1b q.h1a)
  let LoLo := tr (coldfilt pc Lo q.h0b q.h0a)
  (⟨pr / 2, pc / 2, LoLo⟩,
    mkSubband (pr / 2 / 2) (pc / 2 / 2)
      (tr (coldfilt pc Hi q.h0b q.h0a)) (tr (coldfilt pc Lo q.h1b q.h1a))
      (tr (coldfilt pc Hi q.h1b q.h1a)),
    (pr, pc))

/-- The `for level in xrange(1, nlevels)` loop of `dtwavexfm2`. -/
def xfmLoop (q : QshiftFilt) : ℕ → StM → StM × List Subband × List (ℕ × ℕ)
  | 0, st => (st, [], [])
  | n + 1, st =>
    let res := lvl2 q st
    let rest := xfmLoop q n res.1
    (rest.1, res.2.1 :: rest.2.1, res.2.2 :: rest.2.2)

/-- Result of the forward transform: final lowpass `Yl`, subband tensors
`Yh` (finest first), the optional scale list exactly as the source builds
it (`None` placeholders included), and — instrumentation — the dimensions
of the (extended/padded) lowpass image feeding each level. -/
structure Pyramid where
  Yl : StM
  Yh : List Subband
  Yscale : List (Option StM)
  feedDims : List (ℕ × ℕ)

/-- Embedding of `dtwavexfm2(X, nlevels, biort, qshift, include_scale)`.
Odd input dimensions are first evened out by duplicating the last
row/column; `nlevels = 0` returns the (possibly extended) image with empty
subband and scale sequences.  The scale list mirrors the source exactly:
a `None`-initialised list whose slot 0 is set at level 1 and then
overwritten by every level ≥ 2 (so its final state has the last `LoLo` in
slot 0 and `None` everywhere else). -/
def dtwavexfm2 (r c : ℕ) (X : Mat) (nlevels : ℕ) (b : BiortFilt) (q : QshiftFilt)
    (includeScale : Bool) : Pyramid :=
  let er := if r % 2 ≠ 0 then r + 1 else r
  let ec := if c % 2 ≠ 0 then c + 1 else c
  let X1 : Mat := fun i j =>
    X (if r % 2 ≠ 0 ∧ i = r then r - 1 else i) (if c % 2 ≠ 0 ∧ j = c then c - 1 else j)
  if nlevels = 0 then ⟨⟨er, ec, X1⟩, [], [], []⟩
  else
    let l1 := lvl1 er ec X1 b
    let rest := xfmLoop q (nlevels - 1) l1.1
    { Yl := rest.1
      Yh := l1.2 :: rest.2.1
      Yscale := if includeScale then
          (List.replicate nlevels (none : Option StM)).set 0 (some rest.1)
        else []
      feedDims := (er, ec) :: rest.2.2 }

/-- LeGall 5,3 biorthogonal filters, unit-gain normalisation. -/
def biortPR : BiortFilt :=
  { h0o := [K.ofQ (-1/16), K.ofQ (1/8), K.ofQ (3/8), K.ofQ (1/8), K.ofQ (-1/16)]
    g0o := [K.ofQ (1/2), K.ofQ 1, K.ofQ (1/2)]
    h1o := [K.ofQ (-1/4), K.ofQ (1/2), K.ofQ (-1/4)]
    g1o := [K.ofQ (-1/8), K.ofQ (-1/4), K.ofQ (3/4), K.ofQ (-1/4), K.ofQ (-1/8)] }

/-- Orthonormal Haar filters as a q-shift tuple. -/
def qshiftHaar : QshiftFilt :=
  { h0a := [K.sqrtHalf, K.sqrtHalf]
    h0b := [K.sqrtHalf, K.sqrtHalf]
    g0a := [K.sqrtHalf, K.sqrtHalf]
    g0b := [K.sqrtHalf, K.sqrtHalf]
    h1a := [K.sqrtHalf, -K.sqrtHalf]
    h1b := [-K.sqrtHalf, K.sqrtHalf]
    g1a := [-K.sqrtHalf, K.sqrtHalf]
    g1b := [K.sqrtHalf, -K.sqrtHalf] }

/-- Claim C3, as stated, is false for levels ≥ 2: on a 4×4 input with two
levels, the level-2 subband tensor is 1×1 although the padded lowpass
feeding the level is 4×4, whose half is 2×2 (the code allots a quarter, not
a half, of the feeding lowpass at levels ≥ 2). -/
theorem claim3_counterexample :
    ¬ ((dtwavexfm2 4 4 mzero 2 biortPR qshiftHaar false).Yh.map
          (fun sb => (sb.rows, sb.cols)) =
       (dtwavexfm2 4 4 mzero 2 biortPR qshiftHaar false).feedDims.map
          (fun f => (f.1 / 2, f.2 / 2))) := by
  decide

theorem xfmLoop_succ (q : QshiftFilt) (n : ℕ) (st : StM) :
    xfmLoop q (n + 1) st =
      ((xfmLoop q n (lvl2 q st).1).1,
       (lvl2 q st).2.1 :: (xfmLoop q n (lvl2 q st).1).2.1,
       (lvl2 q st).2.2 :: (xfmLoop q n (lvl2 q st).1).2.2) := rfl

theorem xfmLoop_subband_dims (q : QshiftFilt) (n : ℕ) (st : StM) :
    ((xfmLoop q n st).2.1).map (fun sb => (sb.rows, sb.cols)) =
      ((xfmLoop q n st).2.2).map (fun f => (f.1 / 4, f.2 / 4)) := by
  induction n generalizing st with
  | zero => rfl
  | succ n ih =>
    rw [xfmLoop_succ]
    simp only [List.map_cons]
    congr 1
    · show (padTo4 st.r / 2 / 2, padTo4 st.c / 2 / 2) = (padTo4 st.r / 4, padTo4 st.c / 4)
      rw [Nat.div_div_eq_div_mul, Nat.div_div_eq_div_mul]
    · exact ih _

/-- Claim C3, amended: every subband tensor at level `l` has shape
`(H_l, W_l, 6)` where `H_l, W_l` are half the dimensions of the lowpass
image PRODUCED at that level; concretely, for level 1 (odd-length `h0o`)
they are half the extended input's dimensions, and for every level ≥ 2 they
are a QUARTER (not half) of the padded lowpass image entering the level's
filtering. -/
theorem claim3_amended (r c nlevels : ℕ) (X : Mat) (b : BiortFilt) (q : QshiftFilt)
    (inc : Bool) (hr : 1 ≤ r) (hc : 1 ≤ c) (hodd : b.h0o.length % 2 = 1) :
    (dtwavexfm2 r c X nlevels b q inc).Yh.map (fun sb => (sb.rows, sb.cols)) =
      (match (dtwavexfm2 r c X nlevels b q inc).feedDims with
        | [] => []
        | f0 :: fs => (f0.1 / 2, f0.2 / 2) :: fs.map (fun f => (f.1 / 4, f.2 / 4))) := by
  unfold dtwavexfm2
  by_cases h0 : nlevels = 0
  · simp [h0]
  · simp only [if_neg h0]
    rw [List.map_cons]
    congr 1
    · unfold lvl1 mkSubband
      simp only []
      have e1 : colfilterRows (if r % 2 ≠ 0 then r + 1 else r) b.h0o.length =
          (if r % 2 ≠ 0 then r + 1 else r) := by
        unfold colfilterRows
        split_ifs <;> omega
      have e2 : colfilterRows (if c % 2 ≠ 0 then c + 1 else c) b.h0o.length =
          (if c % 2 ≠ 0 then c + 1 else c) := by
        unfold colfilterRows
        split_ifs <;> omega
      rw [e1, e2]
    · exact xfmLoop_subband_dims q (nlevels - 1) _

/-- Witness for the amended C3 at a concrete input. -/
theorem claim3_witness :
    (dtwavexfm2 4 4 mzero 2 biortPR qshiftHaar false).Yh.map (fun sb => (sb.rows, sb.cols)) =
      (match (dtwavexfm2 4 4 mzero 2 biortPR qshiftHaar false).feedDims with
        | [] => []
        | f0 :: fs => (f0.1 / 2, f0.2 / 2) :: fs.map (fun f => (f.1 / 4, f.2 / 4))) :=
  claim3_amended 4 4 2 mzero biortPR qshiftHaar false (by norm_num) (by norm_num) (by decide)

/-- Claim C8: evaluation of the scale-recording defect.  With
`include_scale` and two levels on a 4×4 input, the returned scale list is
`[some 2×2-lowpass, None]`: slot 1 is never populated and slot 0 holds the
most recent (level-2) lowpass, although the docstring promises "lowpass
coefficients for every scale" (slot `level` should have been written). -/
theorem claim8_scale_slot_eval :
    (dtwavexfm2 4 4 mzero 2 biortPR qshiftHaar true).Yscale.map
        (Option.map (fun st => (st.r, st.c))) = [some (2, 2), none] := by
  decide

/-! ## Perfect reconstruction, stage 1: the 1-D biorthogonal identity

For an odd-length zero-phase (palindromic) kernel, filtering commutes with
the `2r`-periodic index folding (`colfilter_fold`), so a composition of two
`colfilter`s collapses to a single convolution against the folded signal
(`colfilter_colfilter`); for the LeGall filter set the two analysis/
synthesis branches then sum to the identity (`biortPR_identity`). -/

theorem tr_tr (M : Mat) : tr (tr M) = M := rfl

theorem tr_madd (A B : Mat) : tr (madd A B) = madd (tr A) (tr B) := rfl

theorem colifiltGeneral_madd (r : ℕ) (A B : Mat) (ha hb : List K) (i j : ℕ) :
    colifiltGeneral r (madd A B) ha hb i j =
      colifiltGeneral r A ha hb i j + colifiltGeneral r B ha hb i j := by
  unfold colifiltGeneral madd
  simp only []
  split_ifs <;> (simp only [mul_add, Finset.sum_add_distrib]; try ring)

theorem lvl2_st_r (q : QshiftFilt) (st : StM) : (lvl2 q st).1.r = padTo4 st.r / 2 := rfl

theorem lvl2_st_c (q : QshiftFilt) (st : StM) : (lvl2 q st).1.c = padTo4 st.c / 2 := rfl

theorem lvl2_st_M (q : QshiftFilt) (st : StM) :
    (lvl2 q st).1.M = tr (coldfilt (padTo4 st.c)
      (tr (coldfilt (padTo4 st.r) (padMat st.r st.c st.M) q.h0b q.h0a)) q.h0b q.h0a) := rfl

end DTCWT
